import Mathlib

/-!
# Verification of the DeltaInc sequence-delta engine

A shallow embedding, in Lean 4, of the core of the `delta_inc` Rust
library: regions, sequence deltas (`VecDelta`), the LCS diff pipeline
(`longest_common_subsequence`, `extract_delta`, `diff`), delta
application (`transform`), and the incremental tokenisation
(`Tokenisation`).  Rust `Vec<T>`/slices become `List T`, `usize`
becomes `Nat`, and panics/aborts become `none` of an `Option` result
layer.  Loops are embedded either as folds or as fuelled recursions
whose fuel provably dominates the loop measure, so every definition
evaluates by kernel reduction.
-/

namespace DeltaInc

/-- Embedding of `Region` (src/region.rs): a half-open interval
`[offset, offset+length)` over a sequence. -/
structure Region where
  offset : Nat
  length : Nat
deriving DecidableEq, Repr, Inhabited

/-- `Region::new(offset, length)`. -/
def Region.new (offset length : Nat) : Region := ⟨offset, length⟩

/-- `From<Range<usize>> for Region`: offset is the range start, length
is `end - start` (all call sites have `start ≤ end`, so the Nat
truncated subtraction agrees with Rust). -/
def Region.fromRange (s e : Nat) : Region := ⟨s, e - s⟩

/-- The overridden `lt` of `PartialOrd for Region`
(src/region.rs:27-29): `(self.offset + self.length) <= other.offset`,
i.e. `self` ends at or before `other` starts (touching allowed). -/
def Region.lt (a b : Region) : Bool := a.offset + a.length ≤ b.offset

/-- The overridden `gt` of `PartialOrd for Region`
(src/region.rs:31-33). -/
def Region.gt (a b : Region) : Bool := b.offset + b.length ≤ a.offset

/-- Embedding of `PartialOrd::partial_cmp for Region`
(src/region.rs:23-25).  The Rust body is `unimplemented!("TODO")`,
which panics unconditionally; the panic is modelled as `none` (a
returned value would be `some (… : Option Ordering)`). -/
def Region.pcmp (_a _b : Region) : Option (Option Ordering) := none

/-- The `le` operator of `Region` as Rust resolves it: `le` is not
overridden, so the `PartialOrd` default body runs, which calls
`partial_cmp` and tests for `Less | Equal`.  The `none` of the outer
layer propagates the panic of `partial_cmp`. -/
def Region.le (a b : Region) : Option Bool :=
  match Region.pcmp a b with
  | none => none
  | some o => some (o = some Ordering.lt ∨ o = some Ordering.eq : Bool)

/-- The `ge` operator of `Region` as Rust resolves it (default body,
via `partial_cmp`, testing for `Greater | Equal`). -/
def Region.ge (a b : Region) : Option Bool :=
  match Region.pcmp a b with
  | none => none
  | some o => some (o = some Ordering.gt ∨ o = some Ordering.eq : Bool)

/-- `xs[s..e]` for a Rust slice: the elements at indices `s ≤ k < e`.
Every use below has `s ≤ e ≤ xs.length` (so the Rust slice operation
does not panic and agrees with this total function). -/
def listSlice {T : Type} (xs : List T) (s e : Nat) : List T :=
  (xs.take e).drop s

/-- Embedding of `VecDelta<T>` (src/diff/vec_delta.rs): parallel
structure of rewrite meta-data and a flat payload arena.  In each
`regions` pair, the first component is the target region being
rewritten (offsets relative to the target sequence) and the second
component is the sub-range of `data` holding the payload. -/
structure VecDelta (T : Type) where
  regions : List (Region × Region)
  data : List T
deriving DecidableEq, Repr

/-- `VecDelta::new()`. -/
def VecDelta.new {T : Type} : VecDelta T := ⟨[], []⟩

/-- `VecDelta::len()`: the number of atomic rewrites. -/
def VecDelta.len {T : Type} (d : VecDelta T) : Nat := d.regions.length

/-- `VecDelta::is_empty()`. -/
def VecDelta.isEmpty {T : Type} (d : VecDelta T) : Bool := d.regions.isEmpty

/-- `VecDelta::push_raw(range, data)` (src/diff/vec_delta.rs:81-91).
`assert!(n == 0 || self.regions[n-1].0 < region)` is modelled by
returning `none` (the panic of a failed `assert!`) when the delta is
nonempty and the last target region is not `Region::lt` the new one;
on success the payload is copied onto the arena and the pair of the
target region and the arena slice descriptor is appended. -/
def VecDelta.push_raw {T : Type} (d : VecDelta T) (range : Nat × Nat) (data : List T) :
    Option (VecDelta T) :=
  let region := Region.fromRange range.1 range.2
  match d.regions.getLast? with
  | none =>
      some ⟨d.regions ++ [(region, Region.new d.data.length data.length)], d.data ++ data⟩
  | some last =>
      if Region.lt last.1 region then
        some ⟨d.regions ++ [(region, Region.new d.data.length data.length)], d.data ++ data⟩
      else none

/-- `Vec::splice(range, payload)` restricted to how `transform` uses
it: replace `v[r.offset .. r.offset + r.length]` by `payload`.  Rust
panics when the range end exceeds the vector length, modelled by
`none`. -/
def spliceList {T : Type} (v : List T) (r : Region) (payload : List T) : Option (List T) :=
  if r.offset + r.length ≤ v.length then
    some (v.take r.offset ++ payload ++ v.drop (r.offset + r.length))
  else none

/-- One iteration of the `transform` loop (src/diff/vec_delta.rs:96-106)
for entry `(r1, r2)`: read the arena slice `data[r2]` (panicking —
`none` — if it exceeds the arena) and splice it into the vector at the
target region `r1`. -/
def VecDelta.step {T : Type} (data : List T) (e : Region × Region) (v : List T) :
    Option (List T) :=
  if e.2.offset + e.2.length ≤ data.length then
    spliceList v e.1 (listSlice data e.2.offset (e.2.offset + e.2.length))
  else none

/-- The `transform` loop over a list of entries, threading the mutated
vector; `none` models a panic at some entry. -/
def VecDelta.transformFrom {T : Type} (data : List T) :
    List (Region × Region) → List T → Option (List T)
  | [], v => some v
  | e :: rest, v =>
    match VecDelta.step data e v with
    | none => none
    | some v' => VecDelta.transformFrom data rest v'

/-- `VecDelta::transform(&mut vec)` (src/diff/vec_delta.rs:96-106):
apply every rewrite in order, left to right. -/
def VecDelta.transform {T : Type} (d : VecDelta T) (v : List T) : Option (List T) :=
  VecDelta.transformFrom d.data d.regions v

/-- The result of applying only the first `i` rewrites of a delta
("the point at which entry `i` is applied"). -/
def VecDelta.applyFirst {T : Type} (d : VecDelta T) (v : List T) (i : Nat) : Option (List T) :=
  VecDelta.transformFrom d.data (d.regions.take i) v

/-- The LCS table `c` of `longest_common_subsequence`
(src/diff/slice.rs:36-59): a flat vector of size `m * n`
(`m = |lhs|+1`, `n = |rhs|+1`) indexed by `i + j*m`, filled by the
double loop with the classical recurrence; entries at `i = 0` or
`j = 0` keep their initial value `0`. -/
def lcsTable {T : Type} [DecidableEq T] (lhs rhs : List T) : List Nat :=
  let m := lhs.length + 1
  let n := rhs.length + 1
  (List.range lhs.length).foldl (fun c i =>
    (List.range rhs.length).foldl (fun c j =>
      let ij := (i + 1) + ((j + 1) * m)
      match lhs.get? i, rhs.get? j with
      | some a, some b =>
        if a = b then
          c.set ij (c.getD (i + j * m) 0 + 1)
        else
          let c_ijp1 := c.getD (i + (j + 1) * m) 0
          let c_ip1j := c.getD ((i + 1) + j * m) 0
          c.set ij (if c_ip1j ≤ c_ijp1 then c_ijp1 else c_ip1j)
      | _, _ => c) c) (List.replicate (m * n) 0)

/-- The recursive backward walk `extract_subsequence`
(src/diff/slice.rs:61-78), fuelled: each call decreases `i + j` by at
least one, so any fuel `≥ i + j` (in particular the `i + j` used by
`extract_subsequence`) yields exactly the Rust recursion, and at fuel
`0` we have `i = 0`, where the Rust function also returns `res`
unchanged.  `m = res.len() + 1` is the stride of the flat table. -/
def extract_subsequence_go (c : List Nat) :
    Nat → List (Option Nat) → Nat → Nat → List (Option Nat)
  | 0, res, _, _ => res
  | fuel + 1, res, i, j =>
    let m := res.length + 1
    if 0 < i ∧ 0 < j then
      let c_ij := c.getD (i + j * m) 0
      let c_im1j := c.getD ((i - 1) + j * m) 0
      let c_ijm1 := c.getD (i + (j - 1) * m) 0
      if c_ij = c_im1j then
        extract_subsequence_go c fuel (res.set (i - 1) none) (i - 1) j
      else if c_ij = c_ijm1 then
        extract_subsequence_go c fuel (res.set (i - 1) none) i (j - 1)
      else
        (extract_subsequence_go c fuel res (i - 1) (j - 1)).set (i - 1) (some (j - 1))
    else res

/-- `extract_subsequence(c, res, i, j)` (src/diff/slice.rs:61-78). -/
def extract_subsequence (c : List Nat) (res : List (Option Nat)) (i j : Nat) :
    List (Option Nat) :=
  extract_subsequence_go c (i + j) res i j

/-- `longest_common_subsequence(lhs, rhs)` (src/diff/slice.rs:36-59):
build the table, then extract the mapping starting from
`(m - 1, n - 1)` into an all-`None` vector of length `|lhs|`. -/
def longest_common_subsequence {T : Type} [DecidableEq T] (lhs rhs : List T) :
    List (Option Nat) :=
  let m := lhs.length + 1
  let n := rhs.length + 1
  extract_subsequence (lcsTable lhs rhs) (List.replicate lhs.length none) (m - 1) (n - 1)

/-- The flush after the `extract_delta` loop (src/diff/slice.rs:143-149):
if either buffer is non-empty, push a final rewrite with target region
`[a_start, a_start + (|mapping| - b_start))` and payload
`after[a_start ..]`. -/
def extract_delta_flush {T : Type} (mapping : List (Option Nat)) (after : List T)
    (delta : VecDelta T) (a_start b_start : Nat) : Option (VecDelta T) :=
  if b_start < mapping.length ∨ a_start < after.length then
    delta.push_raw (a_start, a_start + (mapping.length - b_start)) (after.drop a_start)
  else some delta

/-- The `extract_delta` loop (src/diff/slice.rs:106-152), fuelled: each
iteration strictly decreases `(|mapping| - b_pos) + (|after| - a_pos)`,
so any fuel at least that measure (in particular the
`|mapping| + |after|` used by `extract_delta`) reproduces the Rust
loop exactly; at fuel `0` the measure is `0`, the loop guard fails,
and the trailing flush runs, just as in the Rust code. -/
def extract_delta_go {T : Type} (mapping : List (Option Nat)) (after : List T) :
    Nat → VecDelta T → Nat → Nat → Nat → Nat → Option (VecDelta T)
  | 0, delta, a_start, _, b_start, _ =>
      extract_delta_flush mapping after delta a_start b_start
  | fuel + 1, delta, a_start, a_pos, b_start, b_pos =>
    if b_pos < mapping.length ∧ a_pos < after.length then
      match mapping.getD b_pos none with
      | none =>
          extract_delta_go mapping after fuel delta a_start a_pos b_start (b_pos + 1)
      | some v =>
          if v < a_pos then
            extract_delta_go mapping after fuel delta a_start a_pos b_start (b_pos + 1)
          else if a_pos < v then
            extract_delta_go mapping after fuel delta a_start v b_start b_pos
          else
            match (if b_start < b_pos ∨ a_start < a_pos then
                     delta.push_raw (a_start, a_start + (b_pos - b_start))
                       (listSlice after a_start a_pos)
                   else some delta) with
            | none => none
            | some d' =>
                extract_delta_go mapping after fuel d' (a_pos + 1) (a_pos + 1)
                  (b_pos + 1) (b_pos + 1)
    else extract_delta_flush mapping after delta a_start b_start

/-- `extract_delta(mapping, after)` (src/diff/slice.rs:106-152): run
the cursor loop from an empty delta, then flush the remaining buffers.
`none` models the panic of the `push_raw` assertion. -/
def extract_delta {T : Type} (mapping : List (Option Nat)) (after : List T) :
    Option (VecDelta T) :=
  extract_delta_go mapping after (mapping.length + after.length) VecDelta.new 0 0 0 0

/-- `<[T] as Diff>::diff(lhs, rhs)` (src/diff/slice.rs:9-14): the LCS
mapping converted into a delta.  `none` models a panic during
extraction. -/
def diff {T : Type} [DecidableEq T] (lhs rhs : List T) : Option (VecDelta T) :=
  extract_delta (longest_common_subsequence lhs rhs) rhs

/-- The deltas reachable through the operations of the library:
`VecDelta::new`, successful `push_raw` (the growing operation, called
`append` by the specification), and successful `diff`. -/
inductive Reachable {T : Type} : VecDelta T → Prop where
  | new : Reachable VecDelta.new
  | push (d d' : VecDelta T) (r : Nat × Nat) (p : List T) :
      Reachable d → d.push_raw r p = some d' → Reachable d'
  | ofDiff (inst : DecidableEq T) (lhs rhs : List T) (d : VecDelta T) :
      diff lhs rhs = some d → Reachable d

/-!
## The rewrite/delta pair used by the tokenisation

`Tokenisation` (src/lex.rs) consumes the list-of-rewrites delta of
`src/vec.rs` / `src/diff/vec.rs` (`vec::Delta`), not `VecDelta`: a
plain list of `(region, payload)` rewrites spliced in order.
-/

/-- Embedding of `vec::Rewrite<T>`: one region together with its
replacement payload. -/
structure VRewrite (T : Type) where
  region : Region
  data : List T
deriving DecidableEq, Repr

/-- `Rewrite::map(func)` (src/diff/vec.rs:28-32): same region, payload
mapped element-wise. -/
def VRewrite.map {T S : Type} (rw : VRewrite T) (f : T → S) : VRewrite S :=
  ⟨rw.region, rw.data.map f⟩

/-- Embedding of `vec::Delta<T>`: a list of rewrites applied in
order. -/
structure VDelta (T : Type) where
  rewrites : List (VRewrite T)
deriving DecidableEq, Repr

/-- `<Vec<T> as Transformable>::transform(d)` (src/vec.rs:67-79):
splice each rewrite in order; `none` models the panic of an
out-of-range splice. -/
def vecTransform {T : Type} (v : List T) (d : VDelta T) : Option (List T) :=
  d.rewrites.foldl (fun acc rw => acc.bind fun vv => spliceList vv rw.region rw.data) (some v)

/-!
## Incremental tokenisation (src/lex.rs)
-/

/-- The data of the `Span` trait output that the tokenisation code
reads: a start index and a last index (`end` in Rust; `start = stop`
is a one-item token).  The token kind plays no role in the claims and
is omitted. -/
structure SpanT where
  start : Nat
  stop : Nat
deriving DecidableEq, Repr

/-- Embedding of the `Tokeniser` trait: a pure scan function from a
sequence and an index to a token span or a domain error. -/
structure Tokeniser (I E : Type) where
  scan : List I → Nat → Except E SpanT

/-- The `generate_starts` loop (src/lex.rs:164-178), fuelled.  One
iteration at position `i < |items|` sets `starts[i] := true`, scans,
and continues at `end + 1`.  For a well-behaved tokeniser
(`end ≥ i`) the position strictly increases, so the loop runs at most
`|items| + 1` times and the fuel used by `generateStarts` is never
exhausted; an exhausted fuel (`none`) corresponds to a run in which a
position repeats, i.e. to the Rust loop diverging. -/
def generateStartsGo {I E : Type} (tok : Tokeniser I E) (items : List I) :
    Nat → Nat → List Bool → Option (Except E (List Bool))
  | 0, _, _ => none
  | fuel + 1, i, starts =>
    if i < items.length then
      let starts' := starts.set i true
      match tok.scan items i with
      | Except.error e => some (Except.error e)
      | Except.ok t => generateStartsGo tok items fuel (t.stop + 1) starts'
    else some (Except.ok starts)

/-- `Tokenisation::generate_starts(items, tokeniser)`
(src/lex.rs:164-178): scan left-to-right from `0` over an all-`false`
bitmap of length `|items|`. -/
def generateStarts {I E : Type} (tok : Tokeniser I E) (items : List I) :
    Option (Except E (List Bool)) :=
  generateStartsGo tok items (items.length + 1) 0 (List.replicate items.length false)

/-- Embedding of `Tokenisation<T>` (src/lex.rs:118-129): the
underlying sequence, the tokeniser, and the token-start bitmap. -/
structure Tokenisation (I E : Type) where
  items : List I
  tokeniser : Tokeniser I E
  starts : List Bool

/-- `Tokenisation::new(items, tokeniser)` (src/lex.rs:142-147):
generate the bitmap from scratch; the tokeniser's error is surfaced
(`some (Except.error e)`); `none` is the diverging-loop case. -/
def Tokenisation.new {I E : Type} (items : List I) (tok : Tokeniser I E) :
    Option (Except E (Tokenisation I E)) :=
  match generateStarts tok items with
  | none => none
  | some (Except.error e) => some (Except.error e)
  | some (Except.ok starts) => some (Except.ok ⟨items, tok, starts⟩)

/-- `Tokenisation::validate()` (src/lex.rs:153-160): regenerate the
bitmap from scratch and `assert!` it equals the stored one (a failed
assertion is a panic, `none`). -/
def Tokenisation.validate {I E : Type} [DecidableEq E] (tk : Tokenisation I E) :
    Option (Except E Unit) :=
  match generateStarts tk.tokeniser tk.items with
  | none => none
  | some (Except.error e) => some (Except.error e)
  | some (Except.ok nstarts) =>
      if nstarts = tk.starts then some (Except.ok ()) else none

/-- The derived bitmap delta of `Tokenisation::transform`
(src/lex.rs:211-212): each rewrite mapped to one with an all-`false`
payload of the same length. -/
def startsDelta {I : Type} (d : VDelta I) : VDelta Bool :=
  ⟨d.rewrites.map (fun r => r.map (fun _ => false))⟩

/-- `<Tokenisation<T> as PartiallyTransformable>::transform(d)`
(src/lex.rs:206-221): transform `items`, splice the derived bitmap
delta into `starts`, `assert!` the lengths agree, then regenerate
`starts` from scratch, propagating a tokeniser error with `?` (which
leaves the already-mutated `items` and the spliced `starts` in
place).  The returned pair is the post-state together with the
`Result`; `none` models a panic (out-of-range splice or failed
assertion) or divergence. -/
def Tokenisation.transform {I E : Type} (tk : Tokenisation I E) (d : VDelta I) :
    Option (Tokenisation I E × Except E Unit) :=
  match vecTransform tk.items d with
  | none => none
  | some items' =>
    match vecTransform tk.starts (startsDelta d) with
    | none => none
    | some starts' =>
      if starts'.length = items'.length then
        match generateStarts tk.tokeniser items' with
        | none => none
        | some (Except.error e) => some (⟨items', tk.tokeniser, starts'⟩, Except.error e)
        | some (Except.ok nstarts) => some (⟨items', tk.tokeniser, nstarts⟩, Except.ok ())
      else none

/-- The positions the `generate_starts` scan visits when started at
position `i`: `i` itself (if in range), and everything visited from
`end + 1` after a successful scan at `i`. -/
inductive ScanFrom {I E : Type} (tok : Tokeniser I E) (items : List I) : Nat → Nat → Prop where
  | refl (i : Nat) : i < items.length → ScanFrom tok items i i
  | step (i q : Nat) (t : SpanT) : i < items.length → tok.scan items i = Except.ok t →
      ScanFrom tok items (t.stop + 1) q → ScanFrom tok items i q

/-- Position `p` begins a token of `items` under `tok`: the scan
decomposition of `items` starting from position `0` has a token
starting at `p`. -/
def TokenStart {I E : Type} (tok : Tokeniser I E) (items : List I) (p : Nat) : Prop :=
  ScanFrom tok items 0 p

/-- A concrete tokeniser for witnesses: every item is a one-item
token. -/
def unitTok : Tokeniser Nat Unit := ⟨fun _ i => Except.ok ⟨i, i⟩⟩

/-- A concrete tokeniser for witnesses: the scan fails on the item
`9`, otherwise every item is a one-item token. -/
def failTok : Tokeniser Nat Unit :=
  ⟨fun items i => if items.getD i 0 = 9 then Except.error () else Except.ok ⟨i, i⟩⟩

/-!
## Theorems
-/

/-- Projection of `Region.fromRange`: the offset is the range start. -/
theorem fromRange_offset (s e : Nat) : (Region.fromRange s e).offset = s := rfl

/-- Projection of `Region.fromRange`: the length is `end - start`. -/
theorem fromRange_length (s e : Nat) : (Region.fromRange s e).length = e - s := rfl

/-- C1.  The diff-apply round trip fails: `diff` does not even return
a delta for every pair of sequences.  On `lhs = [1,2,0]`,
`rhs = [0,3]` the extraction first appends the rewrite with target
region `[0,3)` (three `lhs` positions deleted before the anchor `0`),
and the trailing flush then appends a rewrite at target offset `1`;
the `push_raw` assertion `regions[n-1].0 < region` compares the
previous region's source-length extent `0 + 3 ≤ 1` and fails, so
`diff` panics (modelled by `none`) instead of producing a delta that
rewrites `[1,2,0]` into `[0,3]`. -/
theorem diff_panics_on_round_trip_input :
    diff [1, 2, 0] [0, 3] = (none : Option (VecDelta Nat)) := by rfl

/-- C5.  The canonical LCS example: with the normative tie-break (the
`(i-1, j)` table move is tried before `(i, j-1)`), the backward walk
over `lhs = [a,b,b,c,b,c,d]`, `rhs = [b,b,e,c,d,e]` yields exactly
the mapping `[none, some 0, some 1, some 3, none, none, some 4]`. -/
theorem lcs_canonical_example :
    longest_common_subsequence ['a', 'b', 'b', 'c', 'b', 'c', 'd']
      ['b', 'b', 'e', 'c', 'd', 'e'] =
      [none, some 0, some 1, some 3, none, none, some 4] := by decide

/-- C10.  `Region::partial_cmp` aborts on every pair of regions (its
body is `unimplemented!`), hence so do the derived `<=` and `>=`
operators, whose default bodies call `partial_cmp`; in particular no
call ever observes `None` (the incomparable case) as a return value of
`partial_cmp`.  Only the overridden `<` and `>` are total, computing
`self.offset + self.length <= other.offset` and its mirror image. -/
theorem region_pcmp_aborts (a b : Region) :
    Region.pcmp a b = none ∧ Region.le a b = none ∧ Region.ge a b = none ∧
      (Region.lt a b = true ↔ a.offset + a.length ≤ b.offset) ∧
      (Region.gt a b = true ↔ b.offset + b.length ≤ a.offset) := by
  refine ⟨rfl, rfl, rfl, ?_, ?_⟩ <;> simp [Region.lt, Region.gt]

/-- C2, counterexample.  The delta `diff([1,0], [0,2])` is reachable
through the public operations and has two entries whose target
regions `[0,1)` and `[1,1)` touch: the first ends exactly where the
second begins, a gap of `0`, not `≥ 1` — and `push_raw` accepted it
(`Region::lt` only requires `end ≤ offset`). -/
theorem diff_touching_entries_counterexample :
    diff [1, 0] [0, 2] =
      some ⟨[(⟨0, 1⟩, ⟨0, 0⟩), (⟨1, 0⟩, ⟨0, 1⟩)], [2]⟩ ∧
    (⟨0, 1⟩ : Region).offset + (⟨0, 1⟩ : Region).length = (⟨1, 0⟩ : Region).offset := by
  exact ⟨by rfl, rfl⟩

/-- C3, counterexample.  Applying a delta whose target region `[0,5)`
exceeds the length of the target `[1]` does not produce a recoverable
`MalformedDelta`/`OutOfRange` value: `transform` returns no `Result`
at all, and the out-of-range `Vec::splice` panics, aborting the
process (modelled by `none`). -/
theorem transform_aborts_counterexample :
    VecDelta.transform ⟨[(⟨0, 5⟩, ⟨0, 0⟩)], []⟩ [1] = (none : Option (List Nat)) := by rfl

/-- The backward walk never changes the length of the mapping
vector (it only uses `set`). -/
theorem extract_go_length (c : List Nat) :
    ∀ fuel res i j, (extract_subsequence_go c fuel res i j).length = res.length := by
  intro fuel
  induction fuel with
  | zero => intro res i j; rfl
  | succ fuel ih =>
    intro res i j
    simp only [extract_subsequence_go]
    split
    · split
      · rw [ih, List.length_set]
      · split
        · rw [ih, List.length_set]
        · rw [List.length_set, ih]
    · rfl

/-- The backward walk started at `(i, j)` never touches positions at
index `i` or beyond. -/
theorem extract_go_untouched (c : List Nat) :
    ∀ fuel res i j k, i ≤ k →
      (extract_subsequence_go c fuel res i j)[k]? = res[k]? := by
  intro fuel
  induction fuel with
  | zero => intro res i j k _; rfl
  | succ fuel ih =>
    intro res i j k hik
    simp only [extract_subsequence_go]
    split
    · rename_i hij
      split
      · rw [ih _ _ _ _ (by omega), List.getElem?_set_ne (by omega)]
      · split
        · rw [ih _ _ _ _ hik, List.getElem?_set_ne (by omega)]
        · rw [List.getElem?_set_ne (by omega), ih _ _ _ _ (by omega)]
    · rfl

/-- Invariant of the backward walk: started at `(i, j)` on a buffer
whose positions below `i` are all `none`, the non-`none` entries it
leaves below `i` are bounded by `j` and strictly increasing in entry
order. -/
theorem extract_go_entries (c : List Nat) :
    ∀ fuel res i j, (∀ k, k < i → res[k]? = some none) →
      (∀ k v, k < i →
        (extract_subsequence_go c fuel res i j)[k]? = some (some v) → v < j) ∧
      (∀ k l v w, k < l → l < i →
        (extract_subsequence_go c fuel res i j)[k]? = some (some v) →
        (extract_subsequence_go c fuel res i j)[l]? = some (some w) → v < w) := by
  intro fuel
  induction fuel with
  | zero =>
    intro res i j hres
    constructor
    · intro k v hk hkv
      rw [show extract_subsequence_go c 0 res i j = res from rfl, hres k hk] at hkv
      exact absurd (Option.some.inj hkv) (by simp)
    · intro k l v w hkl hl hkv _
      rw [show extract_subsequence_go c 0 res i j = res from rfl, hres k (by omega)] at hkv
      exact absurd (Option.some.inj hkv) (by simp)
  | succ fuel ih =>
    intro res i j hres
    simp only [extract_subsequence_go]
    split
    · rename_i hij
      split
      · -- move to (i-1, j)
        have hres' : ∀ k, k < i - 1 → (res.set (i - 1) none)[k]? = some none := by
          intro k hk
          rw [List.getElem?_set_ne (by omega)]; exact hres k (by omega)
        have hlen : i - 1 < res.length := by
          have := hres (i - 1) (by omega)
          have := List.getElem?_eq_some_iff.mp this
          exact this.1
        have htop : (extract_subsequence_go c fuel (res.set (i - 1) none) (i - 1) j)[i - 1]? =
            some none := by
          rw [extract_go_untouched c fuel _ _ _ _ (le_refl _)]
          rw [List.getElem?_set, if_pos rfl, if_pos (by simpa using hlen)]
        obtain ⟨ihb, ihp⟩ := ih (res.set (i - 1) none) (i - 1) j hres'
        constructor
        · intro k v hk hkv
          rcases Nat.lt_or_ge k (i - 1) with hk' | hk'
          · exact ihb k v hk' hkv
          · have : k = i - 1 := by omega
            subst this
            rw [htop] at hkv
            exact absurd (Option.some.inj hkv) (by simp)
        · intro k l v w hkl hl hkv hlv
          rcases Nat.lt_or_ge l (i - 1) with hl' | hl'
          · exact ihp k l v w hkl hl' hkv hlv
          · have : l = i - 1 := by omega
            subst this
            rw [htop] at hlv
            exact absurd (Option.some.inj hlv) (by simp)
      · split
        · -- move to (i, j-1)
          have hlen : i - 1 < res.length := by
            have := List.getElem?_eq_some_iff.mp (hres (i - 1) (by omega))
            exact this.1
          have hres' : ∀ k, k < i → (res.set (i - 1) none)[k]? = some none := by
            intro k hk
            rcases eq_or_ne (i - 1) k with h | h
            · rw [List.getElem?_set, if_pos h, if_pos hlen]
            · rw [List.getElem?_set_ne h]; exact hres k hk
          obtain ⟨ihb, ihp⟩ := ih (res.set (i - 1) none) i (j - 1) hres'
          constructor
          · intro k v hk hkv
            have := ihb k v hk hkv
            omega
          · exact ihp
        · -- diagonal: recurse on (i-1, j-1), then set position i-1 to j-1
          have hlen : i - 1 < res.length := by
            have := List.getElem?_eq_some_iff.mp (hres (i - 1) (by omega))
            exact this.1
          have hres' : ∀ k, k < i - 1 → res[k]? = some none := fun k hk => hres k (by omega)
          obtain ⟨ihb, ihp⟩ := ih res (i - 1) (j - 1) hres'
          have hlen' : i - 1 < (extract_subsequence_go c fuel res (i - 1) (j - 1)).length := by
            rw [extract_go_length]; exact hlen
          have htop :
              ((extract_subsequence_go c fuel res (i - 1) (j - 1)).set (i - 1)
                  (some (j - 1)))[i - 1]? = some (some (j - 1)) := by
            rw [List.getElem?_set, if_pos rfl, if_pos hlen']
          constructor
          · intro k v hk hkv
            rcases Nat.lt_or_ge k (i - 1) with hk' | hk'
            · rw [List.getElem?_set_ne (by omega)] at hkv
              have := ihb k v hk' hkv
              omega
            · have : k = i - 1 := by omega
              subst this
              rw [htop] at hkv
              have := Option.some.inj hkv
              have := Option.some.inj this
              omega
          · intro k l v w hkl hl hkv hlv
            rcases Nat.lt_or_ge l (i - 1) with hl' | hl'
            · rw [List.getElem?_set_ne (by omega)] at hkv
              rw [List.getElem?_set_ne (by omega)] at hlv
              exact ihp k l v w hkl hl' hkv hlv
            · have : l = i - 1 := by omega
              subst this
              rw [htop] at hlv
              rw [List.getElem?_set_ne (by omega)] at hkv
              have hv := ihb k v (by omega) hkv
              have := Option.some.inj hlv
              have := Option.some.inj this
              omega
    · rename_i hij
      constructor
      · intro k v hk hkv
        rw [hres k hk] at hkv
        exact absurd (Option.some.inj hkv) (by simp)
      · intro k l v w hkl hl hkv _
        rw [hres k (by omega)] at hkv
        exact absurd (Option.some.inj hkv) (by simp)

/-- C4.  LCS bounds: `longest_common_subsequence(a, b)` returns a
vector of length `|a|`; its non-`none` entries are strictly
increasing in position order, and each one is an index within
`[0, |b|)`. -/
theorem lcs_bounds {T : Type} [DecidableEq T] (a b : List T) :
    (longest_common_subsequence a b).length = a.length ∧
    (∀ k v : Nat, (longest_common_subsequence a b)[k]? = some (some v) → v < b.length) ∧
    (∀ k l v w : Nat, k < l →
      (longest_common_subsequence a b)[k]? = some (some v) →
      (longest_common_subsequence a b)[l]? = some (some w) → v < w) := by
  have hrep : ∀ k, k < a.length → (List.replicate a.length (none : Option Nat))[k]? =
      some none := by
    intro k hk
    rw [List.getElem?_replicate, if_pos hk]
  have hb := extract_go_entries (lcsTable a b) (a.length + b.length)
    (List.replicate a.length none) a.length b.length hrep
  have hlen : (longest_common_subsequence a b).length = a.length := by
    unfold longest_common_subsequence extract_subsequence
    simp only [Nat.add_sub_cancel]
    rw [extract_go_length, List.length_replicate]
  have hdef : longest_common_subsequence a b =
      extract_subsequence_go (lcsTable a b) (a.length + b.length)
        (List.replicate a.length none) a.length b.length := by
    unfold longest_common_subsequence extract_subsequence
    simp only [Nat.add_sub_cancel]
  refine ⟨hlen, ?_, ?_⟩
  · intro k v hkv
    have hk : k < a.length := by
      have := List.getElem?_eq_some_iff.mp (hdef ▸ hkv)
      have hl := this.1
      rw [extract_go_length, List.length_replicate] at hl
      exact hl
    exact hb.1 k v hk (hdef ▸ hkv)
  · intro k l v w hkl hkv hlv
    have hl : l < a.length := by
      have := List.getElem?_eq_some_iff.mp (hdef ▸ hlv)
      have hl := this.1
      rw [extract_go_length, List.length_replicate] at hl
      exact hl
    exact hb.2 k l v w hkl hl (hdef ▸ hkv) (hdef ▸ hlv)

/-- The ordering relation the delta entries actually satisfy: the
earlier target region ends at or before the offset of the later one
(`Region::lt`, which permits touching). -/
def entryLe (e f : Region × Region) : Prop :=
  e.1.offset + e.1.length ≤ f.1.offset

/-- In an `entryLe`-sorted list, every element ends at or before the
end of the last element. -/
theorem pairwise_le_last :
    ∀ (l : List (Region × Region)) (x : Region × Region), l.Pairwise entryLe →
      l.getLast? = some x → ∀ a ∈ l, a.1.offset + a.1.length ≤ x.1.offset + x.1.length := by
  intro l
  induction l with
  | nil => intro x _ hx; simp at hx
  | cons y ys ih =>
    intro x hp hx a ha
    cases ys with
    | nil =>
      simp at hx ha
      subst hx; subst ha; omega
    | cons z zs =>
      rw [List.getLast?_cons_cons] at hx
      rcases List.mem_cons.mp ha with rfl | ha'
      · have hx_mem : x ∈ z :: zs := List.mem_of_mem_getLast? hx
        have := (List.pairwise_cons.mp hp).1 x hx_mem
        unfold entryLe at this
        omega
      · exact ih x (List.pairwise_cons.mp hp).2 hx a ha'

/-- A successful `push_raw` preserves the `entryLe` sortedness of the
entry list. -/
theorem push_raw_pairwise {T : Type} {d d' : VecDelta T} {r : Nat × Nat} {p : List T}
    (hd : d.regions.Pairwise entryLe) (h : d.push_raw r p = some d') :
    d'.regions.Pairwise entryLe := by
  rcases hlast : d.regions.getLast? with _ | last
  · simp only [VecDelta.push_raw, hlast, Option.some.injEq] at h
    have : d.regions = [] := List.getLast?_eq_none_iff.mp hlast
    rw [← h, this]
    simp
  · simp only [VecDelta.push_raw, hlast] at h
    by_cases hlt : Region.lt last.1 (Region.fromRange r.1 r.2) = true
    · rw [if_pos hlt, Option.some.injEq] at h
      rw [← h]
      refine List.pairwise_append.mpr ⟨hd, by simp, ?_⟩
      intro a ha b hb
      rcases List.mem_singleton.mp hb with rfl
      have h1 := pairwise_le_last d.regions last hd hlast a ha
      simp only [Region.lt, decide_eq_true_eq, fromRange_offset] at hlt
      unfold entryLe
      simp only [fromRange_offset]
      omega
    · rw [if_neg hlt] at h
      exact absurd h (by simp)

/-- The trailing flush of `extract_delta` preserves sortedness. -/
theorem flush_pairwise {T : Type} {mapping : List (Option Nat)} {after : List T}
    {delta d' : VecDelta T} {a_start b_start : Nat}
    (hd : delta.regions.Pairwise entryLe)
    (h : extract_delta_flush mapping after delta a_start b_start = some d') :
    d'.regions.Pairwise entryLe := by
  unfold extract_delta_flush at h
  split at h
  · exact push_raw_pairwise hd h
  · cases h; exact hd

/-- Every delta the `extract_delta` loop produces from an
`entryLe`-sorted accumulator is `entryLe`-sorted: the loop only grows
the delta through `push_raw`. -/
theorem extract_go_pairwise {T : Type} (mapping : List (Option Nat)) (after : List T) :
    ∀ (fuel : Nat) (delta : VecDelta T) (a_start a_pos b_start b_pos : Nat)
      (d' : VecDelta T), delta.regions.Pairwise entryLe →
      extract_delta_go mapping after fuel delta a_start a_pos b_start b_pos = some d' →
      d'.regions.Pairwise entryLe := by
  intro fuel
  induction fuel with
  | zero =>
    intro delta a_start a_pos b_start b_pos d' hd h
    exact flush_pairwise hd h
  | succ fuel ih =>
    intro delta a_start a_pos b_start b_pos d' hd h
    simp only [extract_delta_go] at h
    split at h
    · split at h
      · exact ih _ _ _ _ _ _ hd h
      · split at h
        · exact ih _ _ _ _ _ _ hd h
        · split at h
          · exact ih _ _ _ _ _ _ hd h
          · rcases hpush : (if b_start < b_pos ∨ a_start < a_pos then
                VecDelta.push_raw delta (a_start, a_start + (b_pos - b_start))
                  (listSlice after a_start a_pos)
              else some delta) with _ | d''
            · rw [hpush] at h; exact absurd h (by simp)
            · rw [hpush] at h
              have hd'' : d''.regions.Pairwise entryLe := by
                split at hpush
                · exact push_raw_pairwise hd hpush
                · cases hpush; exact hd
              exact ih _ _ _ _ _ _ hd'' h
    · exact flush_pairwise hd h

/-- C2 (amended).  Every delta reachable through the public operations
(`new`, `push_raw`/append, `diff`) has its target regions sorted by
`Region::lt`: for `i < j`, `entries[i].target_region` ends at or
before the offset of `entries[j].target_region` — non-overlapping, but
a gap of `0` (touching) is permitted.  Moreover `push_raw` aborts
exactly when the delta is nonempty and its last target region is not
`Region::lt` the new range, i.e. overlap is the only abort cause. -/
theorem reachable_delta_ordering (T : Type) :
    (∀ d : VecDelta T, Reachable d → d.regions.Pairwise entryLe) ∧
    (∀ (d : VecDelta T) (r : Nat × Nat) (p : List T),
      d.push_raw r p = none ↔
        ∃ e, d.regions.getLast? = some e ∧ ¬ (e.1.offset + e.1.length ≤ r.1)) := by
  constructor
  · intro d hd
    induction hd with
    | new => simp [VecDelta.new]
    | push d d' r p _ hpush ih => exact push_raw_pairwise ih hpush
    | ofDiff inst lhs rhs d hdiff =>
      unfold diff extract_delta at hdiff
      exact extract_go_pairwise _ _ _ _ _ _ _ _ _ (by simp [VecDelta.new]) hdiff
  · intro d r p
    rcases hlast : d.regions.getLast? with _ | last
    · simp [VecDelta.push_raw, hlast]
    · by_cases hlt : Region.lt last.1 (Region.fromRange r.1 r.2) = true
      · simp only [VecDelta.push_raw, hlast, if_pos hlt, hlast]
        simp only [Region.lt, decide_eq_true_eq, fromRange_offset] at hlt
        constructor
        · intro h; exact absurd h (by simp)
        · rintro ⟨e, he, hnot⟩
          rw [Option.some.injEq] at he
          subst he
          omega
      · simp only [VecDelta.push_raw, hlast, if_neg hlt, hlast]
        simp only [Region.lt, decide_eq_true_eq, fromRange_offset] at hlt
        constructor
        · intro _
          exact ⟨last, rfl, hlt⟩
        · intro _; trivial

/-- The `transform` loop panics exactly when, after some prefix of the
entries has been applied successfully, the next entry's step fails. -/
theorem transformFrom_none_iff {T : Type} (data : List T) :
    ∀ (rs : List (Region × Region)) (v : List T),
      VecDelta.transformFrom data rs v = none ↔
        ∃ (i : Nat) (e : Region × Region) (w : List T), rs[i]? = some e ∧
          VecDelta.transformFrom data (rs.take i) v = some w ∧
          VecDelta.step data e w = none := by
  intro rs
  induction rs with
  | nil =>
    intro v
    constructor
    · intro h; exact absurd h (by simp [VecDelta.transformFrom])
    · rintro ⟨i, e, w, hi, _, _⟩; simp at hi
  | cons r rest ih =>
    intro v
    simp only [VecDelta.transformFrom]
    rcases hstep : VecDelta.step data r v with _ | v'
    · constructor
      · intro _
        refine ⟨0, r, v, by simp, ?_, hstep⟩
        simp [VecDelta.transformFrom]
      · intro _; rfl
    · rw [ih v']
      constructor
      · rintro ⟨i, e, w, hi, hw, hfail⟩
        refine ⟨i + 1, e, w, by simpa using hi, ?_, hfail⟩
        rw [List.take_succ_cons]
        simp only [VecDelta.transformFrom, hstep]
        exact hw
      · rintro ⟨i, e, w, hi, hw, hfail⟩
        cases i with
        | zero =>
          simp only [List.getElem?_cons_zero, Option.some.injEq] at hi
          simp only [List.take_zero, VecDelta.transformFrom, Option.some.injEq] at hw
          subst hi; subst hw
          rw [hstep] at hfail
          exact absurd hfail (by simp)
        | succ i =>
          refine ⟨i, e, w, by simpa using hi, ?_, hfail⟩
          rw [List.take_succ_cons] at hw
          simp only [VecDelta.transformFrom, hstep] at hw
          exact hw

/-- C3 (amended).  For a delta whose payload slices lie within the
arena (true of every delta the library constructs) and any target
vector, `transform` panics/aborts — it has no recoverable
`MalformedDelta`/`OutOfRange` result, its signature returns nothing —
and it does so exactly when some entry's target region extends beyond
the current length of the vector at the point that entry is applied
(all earlier entries having succeeded). -/
theorem transform_abort_iff {T : Type} (d : VecDelta T) (v : List T)
    (harena : ∀ e ∈ d.regions, e.2.offset + e.2.length ≤ d.data.length) :
    d.transform v = none ↔
      ∃ (i : Nat) (e : Region × Region) (w : List T), d.regions[i]? = some e ∧
        d.applyFirst v i = some w ∧ w.length < e.1.offset + e.1.length := by
  unfold VecDelta.transform VecDelta.applyFirst
  rw [transformFrom_none_iff]
  constructor
  · rintro ⟨i, e, w, hi, hw, hfail⟩
    refine ⟨i, e, w, hi, hw, ?_⟩
    have hb := harena e (List.getElem?_mem hi)
    unfold VecDelta.step at hfail
    rw [if_pos hb] at hfail
    unfold spliceList at hfail
    by_contra hc
    push_neg at hc
    rw [if_pos hc] at hfail
    exact absurd hfail (by simp)
  · rintro ⟨i, e, w, hi, hw, hlen⟩
    refine ⟨i, e, w, hi, hw, ?_⟩
    unfold VecDelta.step
    split
    · unfold spliceList
      rw [if_neg (by omega)]
    · rfl

/-- The backward walk with `j = 0` (empty right input) returns the
buffer unchanged. -/
theorem extract_go_j0 (c : List Nat) (fuel : Nat) (res : List (Option Nat)) (i : Nat) :
    extract_subsequence_go c fuel res i 0 = res := by
  cases fuel with
  | zero => rfl
  | succ fuel =>
    simp only [extract_subsequence_go]
    rw [if_neg (by omega)]

/-- The backward walk with `i = 0` (empty left input) returns the
buffer unchanged. -/
theorem extract_go_i0 (c : List Nat) (fuel : Nat) (res : List (Option Nat)) (j : Nat) :
    extract_subsequence_go c fuel res 0 j = res := by
  cases fuel with
  | zero => rfl
  | succ fuel =>
    simp only [extract_subsequence_go]
    rw [if_neg (by omega)]

/-- Against an empty right input, the LCS mapping is all-`None`. -/
theorem lcs_nil_right {T : Type} [DecidableEq T] (lhs : List T) :
    longest_common_subsequence lhs [] = List.replicate lhs.length none := by
  unfold longest_common_subsequence extract_subsequence
  simp only [List.length_nil, Nat.add_sub_cancel]
  exact extract_go_j0 _ _ _ _

/-- Against an empty left input, the LCS mapping is empty. -/
theorem lcs_nil_left {T : Type} [DecidableEq T] (rhs : List T) :
    longest_common_subsequence [] rhs = [] := by
  unfold longest_common_subsequence extract_subsequence
  simp only [List.length_nil, Nat.add_sub_cancel]
  rw [extract_go_i0]
  rfl

/-- With an empty `after` sequence the `extract_delta` loop guard
fails immediately and only the trailing flush runs. -/
theorem extract_go_after_nil {T : Type} (mapping : List (Option Nat)) (fuel : Nat)
    (delta : VecDelta T) (a_start a_pos b_start b_pos : Nat) :
    extract_delta_go mapping [] fuel delta a_start a_pos b_start b_pos =
      extract_delta_flush mapping [] delta a_start b_start := by
  cases fuel with
  | zero => rfl
  | succ fuel =>
    simp only [extract_delta_go]
    rw [if_neg (by simp)]

/-- With an empty mapping the `extract_delta` loop guard fails
immediately and only the trailing flush runs. -/
theorem extract_go_mapping_nil {T : Type} (after : List T) (fuel : Nat)
    (delta : VecDelta T) (a_start a_pos b_start b_pos : Nat) :
    extract_delta_go [] after fuel delta a_start a_pos b_start b_pos =
      extract_delta_flush [] after delta a_start b_start := by
  cases fuel with
  | zero => rfl
  | succ fuel =>
    simp only [extract_delta_go]
    rw [if_neg (by simp)]

/-- C6.  `diff` tolerates empty inputs: two empty sequences produce
the empty delta (`len() = 0`); a nonempty `lhs` against an empty `rhs`
produces the single whole-sequence rewrite that deletes all of `lhs`
(target region `[0, |lhs|)`, empty payload); an empty `lhs` against a
nonempty `rhs` produces the single whole-sequence rewrite that inserts
all of `rhs` (target region `[0, 0)`, payload `rhs`). -/
theorem diff_empty_inputs {T : Type} [DecidableEq T] (lhs rhs : List T)
    (h1 : lhs ≠ []) (h2 : rhs ≠ []) :
    (diff ([] : List T) [] = some VecDelta.new ∧ (VecDelta.new : VecDelta T).len = 0) ∧
    (diff lhs [] = some ⟨[(⟨0, lhs.length⟩, ⟨0, 0⟩)], []⟩ ∧
      (⟨[(⟨0, lhs.length⟩, ⟨0, 0⟩)], ([] : List T)⟩ : VecDelta T).len = 1) ∧
    (diff [] rhs = some ⟨[(⟨0, 0⟩, ⟨0, rhs.length⟩)], rhs⟩ ∧
      (⟨[(⟨0, 0⟩, ⟨0, rhs.length⟩)], rhs⟩ : VecDelta T).len = 1) := by
  have hl : 0 < lhs.length := List.length_pos.mpr h1
  have hr : 0 < rhs.length := List.length_pos.mpr h2
  refine ⟨⟨rfl, rfl⟩, ⟨?_, rfl⟩, ⟨?_, rfl⟩⟩
  · unfold diff
    rw [lcs_nil_right]
    unfold extract_delta
    rw [extract_go_after_nil]
    unfold extract_delta_flush
    rw [if_pos (Or.inl (by simpa using hl))]
    simp [VecDelta.push_raw, VecDelta.new, Region.fromRange, Region.new]
  · unfold diff
    rw [lcs_nil_left]
    unfold extract_delta
    rw [extract_go_mapping_nil]
    unfold extract_delta_flush
    rw [if_pos (Or.inr (by simpa using hr))]
    simp [VecDelta.push_raw, VecDelta.new, Region.fromRange, Region.new]

/-- A successful `generate_starts` run preserves the bitmap length
(the loop only uses `set`). -/
theorem generateStartsGo_length {I E : Type} (tok : Tokeniser I E) (items : List I) :
    ∀ (fuel i : Nat) (starts s : List Bool),
      generateStartsGo tok items fuel i starts = some (Except.ok s) →
      s.length = starts.length := by
  intro fuel
  induction fuel with
  | zero => intro i starts s h; exact absurd h (by simp [generateStartsGo])
  | succ fuel ih =>
    intro i starts s h
    simp only [generateStartsGo] at h
    split at h
    · rcases hscan : tok.scan items i with e | t
      · rw [hscan] at h; exact absurd h (by simp)
      · rw [hscan] at h
        rw [ih _ _ _ h, List.length_set]
    · cases h
      rfl

/-- Bitmap contents of a successful `generate_starts` run started at
position `i`: position `k` holds `true` exactly when it already did,
or when the scan from `i` visits `k`. -/
theorem generateStartsGo_spec {I E : Type} (tok : Tokeniser I E) (items : List I) :
    ∀ (fuel i : Nat) (starts s : List Bool), starts.length = items.length →
      generateStartsGo tok items fuel i starts = some (Except.ok s) →
      ∀ k, (s[k]? = some true ↔ (starts[k]? = some true ∨ ScanFrom tok items i k)) := by
  intro fuel
  induction fuel with
  | zero => intro i starts s _ h; exact absurd h (by simp [generateStartsGo])
  | succ fuel ih =>
    intro i starts s hlen h k
    simp only [generateStartsGo] at h
    split at h
    · rename_i hi
      rcases hscan : tok.scan items i with e | t
      · rw [hscan] at h; exact absurd h (by simp)
      · rw [hscan] at h
        have hlen' : (starts.set i true).length = items.length := by
          rw [List.length_set]; exact hlen
        rw [ih _ _ _ hlen' h k]
        constructor
        · rintro (hset | hsf)
          · rcases eq_or_ne i k with rfl | hne
            · exact Or.inr (ScanFrom.refl i hi)
            · left
              rwa [List.getElem?_set_ne hne] at hset
          · exact Or.inr (ScanFrom.step i k t hi hscan hsf)
        · rintro (horig | hsf)
          · rcases eq_or_ne i k with rfl | hne
            · left
              rw [List.getElem?_set, if_pos rfl, if_pos (by omega)]
            · left
              rwa [List.getElem?_set_ne hne]
          · cases hsf with
            | refl _ h' =>
              left
              rw [List.getElem?_set, if_pos rfl, if_pos (by omega)]
            | step _ _ t' hi' hscan' hrest =>
              right
              rw [hscan] at hscan'
              injection hscan' with h'
              subst h'
              exact hrest
    · rename_i hi
      cases h
      constructor
      · exact Or.inl
      · rintro (horig | hsf)
        · exact horig
        · cases hsf with
          | refl _ h' => omega
          | step _ _ t' hi' _ _ => omega

/-- Bitmap characterisation for a full successful `generate_starts`:
the length is `|items|` and `starts[k]` is `true` exactly at the
token-start positions. -/
theorem generateStarts_spec {I E : Type} (tok : Tokeniser I E) (items : List I)
    (s : List Bool) (h : generateStarts tok items = some (Except.ok s)) :
    s.length = items.length ∧ ∀ k, (s[k]? = some true ↔ TokenStart tok items k) := by
  constructor
  · rw [generateStartsGo_length tok items _ _ _ _ h, List.length_replicate]
  · intro k
    rw [generateStartsGo_spec tok items _ 0 _ s (by simp) h k]
    unfold TokenStart
    constructor
    · rintro (hrep | hsf)
      · rw [List.getElem?_replicate] at hrep
        split at hrep <;> simp at hrep
      · exact hsf
    · exact Or.inr

/-- C9.  For every tokeniser whose successful scan at `p` returns a
span with `end ≥ p`, the construction scan terminates: each iteration
advances the position from `p` to `end + 1 > p`, so the loop measure
`|items| - p` strictly decreases and the provided fuel is never
exhausted; consequently `Tokenisation::new` returns (with a
tokenisation or the tokeniser's error) rather than looping. -/
theorem generate_starts_terminates {I E : Type} (tok : Tokeniser I E) (items : List I)
    (hwb : ∀ (p : Nat) (t : SpanT), p < items.length →
      tok.scan items p = Except.ok t → p ≤ t.stop) :
    (generateStarts tok items).isSome = true ∧
    (Tokenisation.new items tok).isSome = true := by
  have hgo : ∀ (fuel i : Nat) (starts : List Bool), items.length - i < fuel →
      (generateStartsGo tok items fuel i starts).isSome = true := by
    intro fuel
    induction fuel with
    | zero => intro i starts h; omega
    | succ fuel ih =>
      intro i starts h
      simp only [generateStartsGo]
      split
      · rename_i hi
        rcases hscan : tok.scan items i with e | t
        · simp
        · have := hwb i t hi hscan
          exact ih (t.stop + 1) _ (by omega)
      · simp
  have h1 : (generateStarts tok items).isSome = true := hgo _ 0 _ (by omega)
  refine ⟨h1, ?_⟩
  unfold Tokenisation.new
  rcases hg : generateStarts tok items with _ | g
  · rw [hg] at h1; exact absurd h1 (by simp)
  · rcases g with e | starts <;> simp

/-- C7.  After a successful construction (`Tokenisation::new`) or a
successful incremental `transform`, the tokenisation is consistent:
`|starts| = |items|`, `starts[k]` is `true` exactly when position `k`
begins a token of the scan decomposition of `items` under the
tokeniser, and `validate()` succeeds (returns `Ok(())` without
panicking). -/
theorem tokenisation_consistency {I E : Type} [DecidableEq E]
    (tok : Tokeniser I E) (items : List I) (d : VDelta I) (tk0 tk : Tokenisation I E)
    (h : Tokenisation.new items tok = some (Except.ok tk) ∨
         tk0.transform d = some (tk, Except.ok ())) :
    tk.starts.length = tk.items.length ∧
    (∀ k, (tk.starts[k]? = some true ↔ TokenStart tk.tokeniser tk.items k)) ∧
    tk.validate = some (Except.ok ()) := by
  have key : generateStarts tk.tokeniser tk.items = some (Except.ok tk.starts) := by
    rcases h with h | h
    · unfold Tokenisation.new at h
      split at h
      · exact absurd h (by simp)
      · exact absurd h (by simp)
      · rename_i starts hg
        injection h with h'
        injection h' with h''
        rw [← h'']
        exact hg
    · unfold Tokenisation.transform at h
      split at h
      · exact absurd h (by simp)
      · rename_i items' hitems
        split at h
        · exact absurd h (by simp)
        · rename_i starts' hstarts
          split at h
          · split at h
            · exact absurd h (by simp)
            · exact absurd h (by simp)
            · rename_i ns hg
              injection h with h'
              have h1 : (⟨items', tk0.tokeniser, ns⟩ : Tokenisation I E) = tk :=
                congrArg Prod.fst h'
              rw [← h1]
              exact hg
          · exact absurd h (by simp)
  obtain ⟨hlen, hiff⟩ := generateStarts_spec _ _ _ key
  refine ⟨hlen, hiff, ?_⟩
  unfold Tokenisation.validate
  rw [key]
  simp

/-- C8.  When the tokeniser errors during the full rescan of an
incremental update, `transform` returns that error unchanged and the
tokenisation is left well-formed but stale: the delta has already been
applied to `items` (no rollback), the derived all-`false` bitmap delta
has been applied to `starts`, the tokeniser is unchanged,
`|starts| = |items|` still holds — but `starts` was not regenerated
(the rescan of the new `items` is exactly what failed). -/
theorem transform_error_stale {I E : Type} (tk tk' : Tokenisation I E) (d : VDelta I)
    (e : E) (h : tk.transform d = some (tk', Except.error e)) :
    vecTransform tk.items d = some tk'.items ∧
    vecTransform tk.starts (startsDelta d) = some tk'.starts ∧
    tk'.tokeniser = tk.tokeniser ∧
    tk'.starts.length = tk'.items.length ∧
    generateStarts tk.tokeniser tk'.items = some (Except.error e) := by
  unfold Tokenisation.transform at h
  split at h
  · exact absurd h (by simp)
  · rename_i items' hitems
    split at h
    · exact absurd h (by simp)
    · rename_i starts' hstarts
      split at h
      · rename_i hlen
        split at h
        · exact absurd h (by simp)
        · rename_i e0 hg
          injection h with h'
          have h1 : (⟨items', tk.tokeniser, starts'⟩ : Tokenisation I E) = tk' :=
            congrArg Prod.fst h'
          have h2 : (Except.error e0 : Except E Unit) = Except.error e :=
            congrArg Prod.snd h'
          injection h2 with h2'
          subst h2'
          rw [← h1]
          exact ⟨hitems, hstarts, rfl, hlen, hg⟩
        · exact absurd h (by simp)
      · exact absurd h (by simp)

/-- The scan of the witness tokeniser, in closed form. -/
theorem unitTok_scan (l : List Nat) (i : Nat) : unitTok.scan l i = Except.ok ⟨i, i⟩ := rfl

/-!
## Witnesses
-/

/-- Witness for C2 at the concrete delta produced by
`diff([1,0], [0,2])`: its two entries are `entryLe`-ordered. -/
theorem reachable_delta_ordering_witness :
    ([((⟨0, 1⟩ : Region), (⟨0, 0⟩ : Region)), (⟨1, 0⟩, ⟨0, 1⟩)]).Pairwise entryLe :=
  (reachable_delta_ordering Nat).1 ⟨[(⟨0, 1⟩, ⟨0, 0⟩), (⟨1, 0⟩, ⟨0, 1⟩)], [2]⟩
    (Reachable.ofDiff inferInstance [1, 0] [0, 2] _ (by rfl))

/-- Witness for C3: the delta with single target region `[1,4)` panics
on the two-element vector `[7,8]` (the region extends past its end). -/
theorem transform_abort_iff_witness :
    VecDelta.transform ⟨[(⟨1, 3⟩, ⟨0, 0⟩)], []⟩ [7, 8] = (none : Option (List Nat)) :=
  (transform_abort_iff ⟨[(⟨1, 3⟩, ⟨0, 0⟩)], []⟩ [7, 8] (by decide)).mpr
    ⟨0, (⟨1, 3⟩, ⟨0, 0⟩), [7, 8], by decide, by decide, by decide⟩

/-- Witness for C4 at `a = [1,2]`, `b = [1,2]` (mapping
`[some 0, some 1]`): the entry bound and the strict increase,
instantiated. -/
theorem lcs_bounds_witness : (0 : Nat) < 2 ∧ (0 : Nat) < 1 :=
  ⟨(lcs_bounds [1, 2] [1, 2]).2.1 0 0 (by decide),
   (lcs_bounds [1, 2] [1, 2]).2.2 0 1 0 1 (by decide) (by decide) (by decide)⟩

/-- Witness for C6 at `lhs = [1]`, `rhs = [2]`: the whole-sequence
delete rewrite. -/
theorem diff_empty_inputs_witness :
    diff [1] ([] : List Nat) = some ⟨[(⟨0, 1⟩, ⟨0, 0⟩)], []⟩ :=
  ((diff_empty_inputs [1] [2] (by decide) (by decide)).2.1).1

/-- Witness for C7 at the tokenisation freshly constructed from
`[5]` with the one-item tokeniser: `validate` succeeds. -/
theorem tokenisation_consistency_witness :
    (⟨[5], unitTok, [true]⟩ : Tokenisation Nat Unit).validate = some (Except.ok ()) :=
  (tokenisation_consistency unitTok [5] ⟨[]⟩ ⟨[5], unitTok, [true]⟩ ⟨[5], unitTok, [true]⟩
    (Or.inl rfl)).2.2

/-- Witness for C8: inserting `9` (which the tokeniser rejects) at the
front of `[1]` yields an error from `transform`, and the delta has
still been applied to the items. -/
theorem transform_error_stale_witness :
    vecTransform [1] (⟨[⟨⟨0, 0⟩, [9]⟩]⟩ : VDelta Nat) = some [9, 1] :=
  (transform_error_stale ⟨[1], failTok, [true]⟩ ⟨[9, 1], failTok, [false, true]⟩
    ⟨[⟨⟨0, 0⟩, [9]⟩]⟩ () rfl).1

/-- Witness for C9 with the one-item tokeniser on `[5, 6]`: the
construction scan terminates. -/
theorem generate_starts_terminates_witness :
    (generateStarts unitTok [5, 6]).isSome = true ∧
    (Tokenisation.new [5, 6] unitTok).isSome = true :=
  generate_starts_terminates unitTok [5, 6] (fun p t _ h => by
    rw [unitTok_scan] at h
    injection h with h'
    subst h'
    exact Nat.le_refl p)

/-- Witness for C10 at the overlapping pair `[0,2)`, `[1,6)`:
`partial_cmp` and the derived `<=` panic, while `<` answers
totally. -/
theorem region_pcmp_aborts_witness :
    Region.pcmp ⟨0, 2⟩ ⟨1, 5⟩ = none ∧ Region.le ⟨0, 2⟩ ⟨1, 5⟩ = none ∧
      Region.lt ⟨0, 2⟩ ⟨1, 5⟩ = false :=
  ⟨(region_pcmp_aborts ⟨0, 2⟩ ⟨1, 5⟩).1, (region_pcmp_aborts ⟨0, 2⟩ ⟨1, 5⟩).2.1, by decide⟩

end DeltaInc
